import Mathlib

/-!
Verification of the symmetry-orbit core of the CASM configuration library.

This file shallowly embeds the functions of
`src/casm/configuration/clusterography/orbits.cc`,
`src/casm/configuration/SupercellSymInfo.cc` and
`src/casm/configuration/canonical_form.cc`, and proves the spec's claims
about them.  External collaborators (the crystallography layer) are
represented either by abstract function parameters or by structures whose
fields state exactly the collaborator contract declared in the spec.
-/

namespace CASMClust

/-- An integer 3-tuple `(i, j, k)` labelling a unit cell of the lattice. -/
structure UnitCell where
  i : ℤ
  j : ℤ
  k : ℤ
deriving DecidableEq, Repr

instance : Add UnitCell :=
  ⟨fun u v => ⟨u.i + v.i, u.j + v.j, u.k + v.k⟩⟩

instance : Sub UnitCell :=
  ⟨fun u v => ⟨u.i - v.i, u.j - v.j, u.k - v.k⟩⟩

instance : Neg UnitCell :=
  ⟨fun u => ⟨-u.i, -u.j, -u.k⟩⟩

/-- The zero translation `(0, 0, 0)`. -/
def UnitCell.zero : UnitCell := ⟨0, 0, 0⟩

@[simp] theorem UnitCell.add_def (u v : UnitCell) :
    u + v = ⟨u.i + v.i, u.j + v.j, u.k + v.k⟩ := rfl

@[simp] theorem UnitCell.sub_def (u v : UnitCell) :
    u - v = ⟨u.i - v.i, u.j - v.j, u.k - v.k⟩ := rfl

@[simp] theorem UnitCell.neg_def (u : UnitCell) :
    -u = ⟨-u.i, -u.j, -u.k⟩ := rfl

theorem UnitCell.add_zero' (u : UnitCell) : u + UnitCell.zero = u := by
  cases u; simp [UnitCell.zero]

theorem UnitCell.add_comm' (u v : UnitCell) : u + v = v + u := by
  cases u; cases v; simp; omega

theorem UnitCell.add_assoc' (u v w : UnitCell) : u + v + w = u + (v + w) := by
  cases u; cases v; cases w; simp; omega

theorem UnitCell.add_neg_cancel' (u v : UnitCell) : u + v + -v = u := by
  cases u; cases v; simp

/-- An integral site coordinate: sublattice index `b` and a `UnitCell`. -/
structure UnitCellCoord where
  b : ℕ
  unitcell : UnitCell
deriving DecidableEq, Repr

/-- Translation of an integral site coordinate by a `UnitCell`
(the C++ `UnitCellCoord + UnitCell` operator). -/
def UnitCellCoord.addUC (c : UnitCellCoord) (t : UnitCell) : UnitCellCoord :=
  ⟨c.b, c.unitcell + t⟩

/-- Translation of an integral site coordinate by minus a `UnitCell`
(the C++ `UnitCellCoord - UnitCell` operator used by `clust -= u`). -/
def UnitCellCoord.subUC (c : UnitCellCoord) (t : UnitCell) : UnitCellCoord :=
  ⟨c.b, c.unitcell - t⟩

/-- The deterministic total order on sites: lexicographic on `(b, i, j, k)`. -/
def siteLE (c d : UnitCellCoord) : Prop :=
  c.b < d.b ∨ (c.b = d.b ∧
    (c.unitcell.i < d.unitcell.i ∨ (c.unitcell.i = d.unitcell.i ∧
      (c.unitcell.j < d.unitcell.j ∨ (c.unitcell.j = d.unitcell.j ∧
        c.unitcell.k ≤ d.unitcell.k)))))

instance : DecidableRel siteLE := fun c d => by
  unfold siteLE; infer_instance

instance : IsTotal UnitCellCoord siteLE :=
  ⟨by intro c d; unfold siteLE; omega⟩

instance : IsTrans UnitCellCoord siteLE :=
  ⟨by intro a b c hab hbc; unfold siteLE at *; omega⟩

instance : IsAntisymm UnitCellCoord siteLE :=
  ⟨by
    intro a b hab hba
    obtain ⟨ab, ⟨ai, aj, ak⟩⟩ := a
    obtain ⟨bb, ⟨bi, bj, bk⟩⟩ := b
    unfold siteLE at hab hba
    simp only [UnitCellCoord.mk.injEq, UnitCell.mk.injEq] at *
    omega⟩

/-- An integral cluster: an ordered sequence of integral site coordinates. -/
abbrev IntegralCluster := List UnitCellCoord

/-- In-place `IntegralCluster::sort()`: sort the elements by the
deterministic total order on `(b, i, j, k)`. -/
def sortCluster (clust : IntegralCluster) : IntegralCluster :=
  clust.insertionSort siteLE

/-- Cluster translation `clust += u`: translate every element. -/
def clusterAdd (clust : IntegralCluster) (t : UnitCell) : IntegralCluster :=
  clust.map (fun c => c.addUC t)

/-- Cluster translation `clust -= u`: translate every element backwards. -/
def clusterSub (clust : IntegralCluster) (t : UnitCell) : IntegralCluster :=
  clust.map (fun c => c.subUC t)

/-- Unit cell of the first element of a cluster (`clust[0].unitcell()`);
the `[]` case is never reached where this is used. -/
def headUC (clust : IntegralCluster) : UnitCell :=
  match clust with
  | [] => UnitCell.zero
  | x :: _ => x.unitcell

/-- Embedding of `prim_periodic_integral_cluster_copy_apply` from
`orbits.cc`: empty clusters pass through; otherwise apply `op`
elementwise, sort, and translate by `-clust[0].unitcell()`.  The symmetry
operation representation `op` acts on sites through the external
collaborator `UnitCellCoordRep`, modelled as a function on sites. -/
def prim_periodic_integral_cluster_copy_apply
    (op : UnitCellCoord → UnitCellCoord) (clust : IntegralCluster) :
    IntegralCluster :=
  if clust.isEmpty then clust
  else
    let s := sortCluster (clust.map op)
    clusterSub s (headUC s)

/-- Embedding of `prim_periodic_integral_cluster_frac_translation` from
`orbits.cc`: sort, record `pos_init = clust[0].unitcell()`, apply `op`,
sort again, record `pos_final`, and return `pos_init - pos_final`. -/
def prim_periodic_integral_cluster_frac_translation
    (op : UnitCellCoord → UnitCellCoord) (clust : IntegralCluster) :
    UnitCell :=
  if clust.isEmpty then UnitCell.zero
  else
    let s := sortCluster clust
    let pos_init := headUC s
    let s2 := sortCluster (s.map op)
    pos_init - headUC s2

/-- Embedding of `local_integral_cluster_copy_apply` from `orbits.cc`:
empty clusters pass through; otherwise apply `op` elementwise and sort.
There is no translation to the origin. -/
def local_integral_cluster_copy_apply
    (op : UnitCellCoord → UnitCellCoord) (clust : IntegralCluster) :
    IntegralCluster :=
  if clust.isEmpty then clust
  else sortCluster (clust.map op)

theorem sortCluster_sorted (clust : IntegralCluster) :
    (sortCluster clust).Sorted siteLE :=
  List.sorted_insertionSort siteLE clust

theorem sortCluster_perm (clust : IntegralCluster) :
    List.Perm (sortCluster clust) clust :=
  List.perm_insertionSort siteLE clust

/-- Sorting depends only on the multiset of elements. -/
theorem sortCluster_eq_of_perm {l l' : IntegralCluster} (h : List.Perm l l') :
    sortCluster l = sortCluster l' :=
  List.eq_of_perm_of_sorted
    ((sortCluster_perm l).trans (h.trans (sortCluster_perm l').symm))
    (sortCluster_sorted l) (sortCluster_sorted l')

/-- The site order is invariant under translating both sites. -/
theorem siteLE_subUC_iff (c d : UnitCellCoord) (t : UnitCell) :
    siteLE (c.subUC t) (d.subUC t) ↔ siteLE c d := by
  unfold siteLE UnitCellCoord.subUC
  simp only [UnitCell.sub_def]
  omega

theorem siteLE_addUC_iff (c d : UnitCellCoord) (t : UnitCell) :
    siteLE (c.addUC t) (d.addUC t) ↔ siteLE c d := by
  unfold siteLE UnitCellCoord.addUC
  simp only [UnitCell.add_def]
  omega

/-- Translating a sorted cluster keeps it sorted. -/
theorem clusterSub_sorted {l : IntegralCluster} (h : l.Sorted siteLE)
    (t : UnitCell) : (clusterSub l t).Sorted siteLE :=
  List.Pairwise.map _ (fun a b hab => (siteLE_subUC_iff a b t).mpr hab) h

/-- Sorting commutes with translating the whole cluster, because the site
order is translation invariant. -/
theorem sortCluster_clusterAdd (l : IntegralCluster) (t : UnitCell) :
    sortCluster (clusterAdd l t) = clusterAdd (sortCluster l) t := by
  unfold sortCluster clusterAdd
  exact (List.map_insertionSort siteLE siteLE (fun c => c.addUC t) l
    (fun a _ b _ => (siteLE_addUC_iff a b t).symm)).symm

theorem addUC_subUC_cancel (c : UnitCellCoord) (v t : UnitCell) :
    (c.addUC t).subUC (v + t) = c.subUC v := by
  obtain ⟨b, ⟨i, j, k⟩⟩ := c
  obtain ⟨vi, vj, vk⟩ := v
  obtain ⟨ti, tj, tk⟩ := t
  unfold UnitCellCoord.addUC UnitCellCoord.subUC
  simp only [UnitCell.add_def, UnitCell.sub_def, UnitCellCoord.mk.injEq,
    UnitCell.mk.injEq, true_and]
  omega

theorem clusterSub_clusterAdd (l : IntegralCluster) (v t : UnitCell) :
    clusterSub (clusterAdd l t) (v + t) = clusterSub l v := by
  unfold clusterSub clusterAdd
  rw [List.map_map]
  exact List.map_congr_left (fun c _ => addUC_subUC_cancel c v t)

/-- C1: `prim_periodic_integral_cluster_copy_apply` passes empty clusters
through unchanged, and otherwise applies `op` elementwise, sorts, then
translates by `-clust[0].unitcell()` (first element taken after sorting);
the result is sorted and its first element sits in the origin unit cell. -/
theorem prim_periodic_copy_apply_correct
    (op : UnitCellCoord → UnitCellCoord) (clust : IntegralCluster) :
    (clust = [] → prim_periodic_integral_cluster_copy_apply op clust = clust) ∧
    (clust ≠ [] →
      prim_periodic_integral_cluster_copy_apply op clust
          = clusterSub (sortCluster (clust.map op))
              (headUC (sortCluster (clust.map op))) ∧
      (prim_periodic_integral_cluster_copy_apply op clust).Sorted siteLE ∧
      headUC (prim_periodic_integral_cluster_copy_apply op clust)
          = UnitCell.zero) := by
  constructor
  · rintro rfl
    rfl
  · intro h
    have hne : clust.isEmpty = false := by
      cases clust
      · exact absurd rfl h
      · rfl
    have hdef : prim_periodic_integral_cluster_copy_apply op clust
        = clusterSub (sortCluster (clust.map op))
            (headUC (sortCluster (clust.map op))) := by
      unfold prim_periodic_integral_cluster_copy_apply
      rw [hne]
      simp
    refine ⟨hdef, ?_, ?_⟩
    · rw [hdef]
      exact clusterSub_sorted (sortCluster_sorted _) _
    · rw [hdef]
      have hlen : (sortCluster (clust.map op)).length = clust.length := by
        rw [(sortCluster_perm (clust.map op)).length_eq, List.length_map]
      cases hs : sortCluster (clust.map op) with
      | nil =>
        rw [hs] at hlen
        cases clust
        · exact absurd rfl h
        · simp at hlen
      | cons x xs =>
        obtain ⟨b, ⟨i, j, k⟩⟩ := x
        simp [clusterSub, headUC, UnitCellCoord.subUC, UnitCell.zero]

/-- Witness for C1 at a concrete two-site cluster and the identity
operation. -/
theorem prim_periodic_copy_apply_correct_witness :
    ([⟨0, ⟨1, 0, 0⟩⟩, ⟨0, ⟨0, 0, 0⟩⟩] : IntegralCluster) ≠ [] ∧
    (prim_periodic_integral_cluster_copy_apply (fun c => c)
        [⟨0, ⟨1, 0, 0⟩⟩, ⟨0, ⟨0, 0, 0⟩⟩]
      = clusterSub (sortCluster ([⟨0, ⟨1, 0, 0⟩⟩, ⟨0, ⟨0, 0, 0⟩⟩].map (fun c => c)))
          (headUC (sortCluster ([⟨0, ⟨1, 0, 0⟩⟩, ⟨0, ⟨0, 0, 0⟩⟩].map (fun c => c)))) ∧
    (prim_periodic_integral_cluster_copy_apply (fun c => c)
        [⟨0, ⟨1, 0, 0⟩⟩, ⟨0, ⟨0, 0, 0⟩⟩]).Sorted siteLE ∧
    headUC (prim_periodic_integral_cluster_copy_apply (fun c => c)
        [⟨0, ⟨1, 0, 0⟩⟩, ⟨0, ⟨0, 0, 0⟩⟩]) = UnitCell.zero) :=
  ⟨by decide,
   (prim_periodic_copy_apply_correct (fun c => c)
      [⟨0, ⟨1, 0, 0⟩⟩, ⟨0, ⟨0, 0, 0⟩⟩]).2 (by decide)⟩

/-- C2: `local_integral_cluster_copy_apply` applies `op` elementwise and
sorts, with no translation to the origin; two non-empty local clusters that
differ by a non-zero lattice translation stay distinct under the identity
operation, while `prim_periodic_integral_cluster_copy_apply` identifies
them. -/
theorem local_copy_apply_translation_non_collapse
    (op : UnitCellCoord → UnitCellCoord) (clust : IntegralCluster)
    (t : UnitCell) (h : clust ≠ []) (ht : t ≠ UnitCell.zero) :
    local_integral_cluster_copy_apply op clust = sortCluster (clust.map op) ∧
    local_integral_cluster_copy_apply (fun c => c) clust
      ≠ local_integral_cluster_copy_apply (fun c => c) (clusterAdd clust t) ∧
    prim_periodic_integral_cluster_copy_apply (fun c => c) clust
      = prim_periodic_integral_cluster_copy_apply (fun c => c)
          (clusterAdd clust t) := by
  have hne : clust.isEmpty = false := by
    cases clust
    · exact absurd rfl h
    · rfl
  have hne' : (clusterAdd clust t).isEmpty = false := by
    cases clust
    · exact absurd rfl h
    · rfl
  have hmapid : ∀ l : IntegralCluster, l.map (fun c => c) = l :=
    fun l => List.map_id' l
  have hlocal : ∀ (f : UnitCellCoord → UnitCellCoord) (l : IntegralCluster),
      l.isEmpty = false →
      local_integral_cluster_copy_apply f l = sortCluster (l.map f) := by
    intro f l hl
    unfold local_integral_cluster_copy_apply
    rw [hl]
    simp
  have hlen : (sortCluster clust).length = clust.length :=
    (sortCluster_perm clust).length_eq
  obtain ⟨x, xs, hs⟩ : ∃ x xs, sortCluster clust = x :: xs := by
    cases hsc : sortCluster clust with
    | nil =>
      rw [hsc] at hlen
      cases clust
      · exact absurd rfl h
      · simp at hlen
    | cons x xs => exact ⟨x, xs, rfl⟩
  refine ⟨hlocal op clust hne, ?_, ?_⟩
  · rw [hlocal _ _ hne, hlocal _ _ hne', hmapid, hmapid,
      sortCluster_clusterAdd, hs]
    intro heq
    apply ht
    have hhd := congrArg headUC heq
    simp only [clusterAdd, headUC, List.map_cons, UnitCellCoord.addUC,
      UnitCell.add_def] at hhd
    obtain ⟨b, ⟨i, j, k⟩⟩ := x
    obtain ⟨ti, tj, tk⟩ := t
    simp only [UnitCell.mk.injEq, UnitCell.zero] at hhd ⊢
    omega
  · unfold prim_periodic_integral_cluster_copy_apply
    rw [hne, hne']
    simp only [Bool.false_eq_true, if_false]
    rw [hmapid, hmapid, sortCluster_clusterAdd, hs]
    have hhead : headUC (clusterAdd (x :: xs) t) = x.unitcell + t := rfl
    rw [hhead]
    have hheadx : headUC (x :: xs) = x.unitcell := rfl
    rw [hheadx]
    exact (clusterSub_clusterAdd (x :: xs) x.unitcell t).symm

/-- Witness for C2 at a concrete one-site cluster and translation
`(1, 0, 0)`. -/
theorem local_copy_apply_translation_non_collapse_witness :
    ([⟨0, ⟨0, 0, 0⟩⟩] : IntegralCluster) ≠ [] ∧
    (⟨1, 0, 0⟩ : UnitCell) ≠ UnitCell.zero ∧
    (local_integral_cluster_copy_apply (fun c => c) [⟨0, ⟨0, 0, 0⟩⟩]
      = sortCluster ([⟨0, ⟨0, 0, 0⟩⟩].map (fun c => c)) ∧
    local_integral_cluster_copy_apply (fun c => c) [⟨0, ⟨0, 0, 0⟩⟩]
      ≠ local_integral_cluster_copy_apply (fun c => c)
          (clusterAdd [⟨0, ⟨0, 0, 0⟩⟩] ⟨1, 0, 0⟩) ∧
    prim_periodic_integral_cluster_copy_apply (fun c => c) [⟨0, ⟨0, 0, 0⟩⟩]
      = prim_periodic_integral_cluster_copy_apply (fun c => c)
          (clusterAdd [⟨0, ⟨0, 0, 0⟩⟩] ⟨1, 0, 0⟩)) :=
  ⟨by decide, by decide,
   local_copy_apply_translation_non_collapse (fun c => c) [⟨0, ⟨0, 0, 0⟩⟩]
     ⟨1, 0, 0⟩ (by decide) (by decide)⟩

/-- C10: the results of `prim_periodic_integral_cluster_copy_apply` and
`prim_periodic_integral_cluster_frac_translation` are invariant under any
permutation of the input cluster's element sequence. -/
theorem prim_periodic_perm_invariant (op : UnitCellCoord → UnitCellCoord)
    {clust clust' : IntegralCluster} (h : List.Perm clust clust') :
    prim_periodic_integral_cluster_copy_apply op clust
      = prim_periodic_integral_cluster_copy_apply op clust' ∧
    prim_periodic_integral_cluster_frac_translation op clust
      = prim_periodic_integral_cluster_frac_translation op clust' := by
  have hlen := h.length_eq
  have hemp : clust.isEmpty = clust'.isEmpty := by
    cases clust <;> cases clust' <;> simp_all
  have hs : sortCluster (clust.map op) = sortCluster (clust'.map op) :=
    sortCluster_eq_of_perm (h.map op)
  have hs0 : sortCluster clust = sortCluster clust' :=
    sortCluster_eq_of_perm h
  by_cases hc' : clust' = []
  · subst hc'
    have hc : clust = [] := by simpa using hlen
    subst hc
    exact ⟨rfl, rfl⟩
  · have hne' : clust'.isEmpty = false := by
      cases clust'
      · exact absurd rfl hc'
      · rfl
    have hne : clust.isEmpty = false := by rw [hemp]; exact hne'
    constructor
    · unfold prim_periodic_integral_cluster_copy_apply
      rw [hne, hne']
      simp only [Bool.false_eq_true, if_false]
      rw [hs]
    · unfold prim_periodic_integral_cluster_frac_translation
      rw [hne, hne']
      simp only [Bool.false_eq_true, if_false]
      rw [hs0]

/-- Witness for C10 at a concrete two-site cluster and its reversal. -/
theorem prim_periodic_perm_invariant_witness :
    prim_periodic_integral_cluster_copy_apply (fun c => c)
        [⟨0, ⟨0, 0, 0⟩⟩, ⟨1, ⟨2, 0, 0⟩⟩]
      = prim_periodic_integral_cluster_copy_apply (fun c => c)
        [⟨1, ⟨2, 0, 0⟩⟩, ⟨0, ⟨0, 0, 0⟩⟩] ∧
    prim_periodic_integral_cluster_frac_translation (fun c => c)
        [⟨0, ⟨0, 0, 0⟩⟩, ⟨1, ⟨2, 0, 0⟩⟩]
      = prim_periodic_integral_cluster_frac_translation (fun c => c)
        [⟨1, ⟨2, 0, 0⟩⟩, ⟨0, ⟨0, 0, 0⟩⟩] :=
  prim_periodic_perm_invariant (fun c => c)
    (List.Perm.swap (⟨1, ⟨2, 0, 0⟩⟩ : UnitCellCoord) (⟨0, ⟨0, 0, 0⟩⟩ : UnitCellCoord) [])

/-!
Supercell translation permutations (`SupercellSymInfo.cc`).

The two linear index converters are external collaborators
(`xtal::UnitCellIndexConverter`, `xtal::UnitCellCoordIndexConverter`);
`IndexConverters` states their contract exactly as declared in the spec:
both directions are total, in-range, deterministic bijections, and the
forward maps reduce the `(i, j, k)` part modulo the supercell before
lookup.
-/

/-- Contract of the two index converters for a fixed supercell with
`N` unit cells and `B` sublattices, as declared in the spec:
`ucFwd`/`ucBwd` are the `UnitCellIndexConverter` forward and backward
maps, `siteFwd`/`siteBwd` the `UnitCellCoordIndexConverter` maps.
`ucFwd_add` states that the forward map reduces its argument modulo the
supercell (reducing before adding changes nothing); `siteBwd_siteFwd`
states that the site converter reduces the unit cell part with the same
reduction and keeps the sublattice index. -/
structure IndexConverters where
  N : ℕ
  B : ℕ
  ucFwd : UnitCell → Fin N
  ucBwd : Fin N → UnitCell
  siteFwd : UnitCellCoord → Fin (N * B)
  siteBwd : Fin (N * B) → UnitCellCoord
  ucFwd_ucBwd : ∀ ix, ucFwd (ucBwd ix) = ix
  ucFwd_add : ∀ u v, ucFwd (ucBwd (ucFwd u) + v) = ucFwd (u + v)
  siteFwd_siteBwd : ∀ l, siteFwd (siteBwd l) = l
  siteBwd_b_lt : ∀ l, (siteBwd l).b < B
  siteBwd_siteFwd : ∀ c, c.b < B →
    siteBwd (siteFwd c) = ⟨c.b, ucBwd (ucFwd c.unitcell)⟩

/-- The reduction of an integer tuple modulo the supercell, as performed
by the converters. -/
def IndexConverters.red (cv : IndexConverters) (u : UnitCell) : UnitCell :=
  cv.ucBwd (cv.ucFwd u)

/-- The site-index map induced by translating by `t` and reducing:
`old ↦ bijk_index_converter(bijk_index_converter(old) + t)`. -/
def transMap (cv : IndexConverters) (t : UnitCell) (l : Fin (cv.N * cv.B)) :
    Fin (cv.N * cv.B) :=
  cv.siteFwd ((cv.siteBwd l).addUC t)

/-- Embedding of the inner loop of `make_translation_permutations` from
`SupercellSymInfo.cc`: start from a vector of `-1` placeholders (modelled
as `none`) and, for each `old` site index in order, set
`perm[bijk(bijk(old) + t)] := old` where `t` is the translation for
lattice point `tix`. -/
def transPermArray (cv : IndexConverters) (tix : Fin cv.N) :
    List (Option ℕ) :=
  (List.finRange (cv.N * cv.B)).foldl
    (fun arr old => arr.set (transMap cv (cv.ucBwd tix) old).val (some old.val))
    (List.replicate (cv.N * cv.B) (none : Option ℕ))

/-- Embedding of `make_translation_permutations` from
`SupercellSymInfo.cc`: one permutation per lattice point of the
supercell, in converter order. -/
def make_translation_permutations (cv : IndexConverters) :
    List (List (Option ℕ)) :=
  (List.finRange cv.N).map (fun tix => transPermArray cv tix)

/-- Value-flow composition of permutation arrays under the
`perm[new] = old` convention: `(P ∘ Q)[n] = Q[P[n]]`. -/
def composePerm (P Q : List (Option ℕ)) : List (Option ℕ) :=
  P.map (fun e => e.bind (fun v => (Q[v]?).getD none))

theorem foldl_set_length {n : ℕ} (g : Fin n → Fin n) (olds : List (Fin n))
    (init : List (Option ℕ)) :
    (olds.foldl (fun arr old => arr.set (g old).val (some old.val))
      init).length = init.length := by
  induction olds generalizing init with
  | nil => rfl
  | cons o rest ih => rw [List.foldl_cons, ih, List.length_set]

theorem foldl_set_getElem?_not_mem {n : ℕ} (g : Fin n → Fin n)
    (olds : List (Fin n)) (init : List (Option ℕ)) (p : ℕ)
    (hp : ∀ x ∈ olds, (g x).val ≠ p) :
    (olds.foldl (fun arr old => arr.set (g old).val (some old.val))
      init)[p]? = init[p]? := by
  induction olds generalizing init with
  | nil => rfl
  | cons o rest ih =>
    rw [List.foldl_cons, ih _ (fun x hx => hp x (List.mem_cons_of_mem o hx)),
      List.getElem?_set_ne (hp o (List.mem_cons_self o rest))]

theorem foldl_set_getElem?_mem {n : ℕ} (g : Fin n → Fin n)
    (hg : Function.Injective g) (olds : List (Fin n)) (hnd : olds.Nodup)
    (init : List (Option ℕ)) (hlen : init.length = n) (x : Fin n)
    (hx : x ∈ olds) :
    (olds.foldl (fun arr old => arr.set (g old).val (some old.val))
      init)[(g x).val]? = some (some x.val) := by
  induction olds generalizing init with
  | nil => cases hx
  | cons o rest ih =>
    rw [List.foldl_cons]
    rcases List.mem_cons.mp hx with rfl | hx'
    · rw [foldl_set_getElem?_not_mem]
      · rw [List.getElem?_set_self (by rw [hlen]; exact (g x).isLt)]
      · intro y hy
        have hyx : y ≠ x := fun h => (List.nodup_cons.mp hnd).1 (h ▸ hy)
        exact fun h => hyx (hg (Fin.val_injective h))
    · exact ih (List.nodup_cons.mp hnd).2 _ (by rw [List.length_set, hlen]) hx'

theorem IndexConverters.siteBwd_inj (cv : IndexConverters) :
    Function.Injective cv.siteBwd := fun a b h => by
  rw [← cv.siteFwd_siteBwd a, ← cv.siteFwd_siteBwd b, h]

theorem IndexConverters.red_red_add (cv : IndexConverters) (u v : UnitCell) :
    cv.red (cv.red u + v) = cv.red (u + v) := by
  unfold IndexConverters.red
  rw [cv.ucFwd_add]

theorem IndexConverters.red_add_red (cv : IndexConverters) (u v : UnitCell) :
    cv.red (u + cv.red v) = cv.red (u + v) := by
  rw [UnitCell.add_comm' u (cv.red v), cv.red_red_add,
    UnitCell.add_comm' v u]

theorem IndexConverters.red_siteBwd (cv : IndexConverters)
    (l : Fin (cv.N * cv.B)) :
    cv.red (cv.siteBwd l).unitcell = (cv.siteBwd l).unitcell := by
  have h := cv.siteBwd_siteFwd (cv.siteBwd l) (cv.siteBwd_b_lt l)
  rw [cv.siteFwd_siteBwd l] at h
  exact (congrArg UnitCellCoord.unitcell h).symm

theorem transMap_siteBwd (cv : IndexConverters) (t : UnitCell)
    (l : Fin (cv.N * cv.B)) :
    cv.siteBwd (transMap cv t l)
      = ⟨(cv.siteBwd l).b, cv.red ((cv.siteBwd l).unitcell + t)⟩ :=
  cv.siteBwd_siteFwd ((cv.siteBwd l).addUC t) (cv.siteBwd_b_lt l)

/-- Translating by the reduction of `t` acts like translating by `t`. -/
theorem transMap_red (cv : IndexConverters) (t : UnitCell)
    (l : Fin (cv.N * cv.B)) :
    transMap cv (cv.red t) l = transMap cv t l := by
  apply cv.siteBwd_inj
  rw [transMap_siteBwd, transMap_siteBwd, cv.red_add_red]

/-- Translating by `t2` and then by `t1` acts like translating by
`t2 + t1`. -/
theorem transMap_comp (cv : IndexConverters) (t1 t2 : UnitCell)
    (l : Fin (cv.N * cv.B)) :
    transMap cv t1 (transMap cv t2 l) = transMap cv (t2 + t1) l := by
  apply cv.siteBwd_inj
  rw [transMap_siteBwd, transMap_siteBwd, transMap_siteBwd]
  simp only [UnitCellCoord.mk.injEq, true_and]
  rw [cv.red_red_add, UnitCell.add_assoc']

/-- Translating by a representative of the zero translation is the
identity on site indices. -/
theorem transMap_red_zero (cv : IndexConverters) (l : Fin (cv.N * cv.B)) :
    transMap cv (cv.red UnitCell.zero) l = l := by
  rw [transMap_red]
  unfold transMap UnitCellCoord.addUC
  rw [UnitCell.add_zero']
  exact cv.siteFwd_siteBwd l

theorem UnitCellCoord.ext' (c d : UnitCellCoord) (h1 : c.b = d.b)
    (h2 : c.unitcell = d.unitcell) : c = d := by
  cases c; cases d; cases h1; cases h2; rfl

theorem transMap_inj (cv : IndexConverters) (t : UnitCell) :
    Function.Injective (transMap cv t) := by
  intro a b h
  have h2 := congrArg cv.siteBwd h
  rw [transMap_siteBwd, transMap_siteBwd] at h2
  have hb := congrArg UnitCellCoord.b h2
  have hu := congrArg UnitCellCoord.unitcell h2
  simp only at hb hu
  have hu2 := congrArg (fun w => cv.red (w + -t)) hu
  simp only [cv.red_red_add] at hu2
  rw [UnitCell.add_neg_cancel', UnitCell.add_neg_cancel'] at hu2
  rw [cv.red_siteBwd, cv.red_siteBwd] at hu2
  exact cv.siteBwd_inj (UnitCellCoord.ext' _ _ hb hu2)

theorem transMap_surj (cv : IndexConverters) (t : UnitCell) :
    Function.Surjective (transMap cv t) :=
  Finite.surjective_of_injective (transMap_inj cv t)

theorem getElem?_finRange (n i : ℕ) (hi : i < n) :
    (List.finRange n)[i]? = some ⟨i, hi⟩ := by
  have h1 : i < (List.finRange n).length := by
    simpa [List.length_finRange] using hi
  rw [List.getElem?_eq_getElem h1]
  have h2 := List.get_finRange (n := n) (i := i) h1
  rw [List.get_eq_getElem] at h2
  rw [h2]

theorem transPermArray_length (cv : IndexConverters) (tix : Fin cv.N) :
    (transPermArray cv tix).length = cv.N * cv.B := by
  unfold transPermArray
  rw [foldl_set_length, List.length_replicate]

/-- Entry characterisation: position `transMap t old` of the translation
permutation holds `old`, the `perm[new] = old` convention. -/
theorem transPermArray_get (cv : IndexConverters) (tix : Fin cv.N)
    (x : Fin (cv.N * cv.B)) :
    (transPermArray cv tix)[(transMap cv (cv.ucBwd tix) x).val]?
      = some (some x.val) :=
  foldl_set_getElem?_mem _ (transMap_inj cv _) _ (List.nodup_finRange _) _
    (List.length_replicate _ _) x (List.mem_finRange x)

/-- C4: `make_translation_permutations` returns exactly `N` permutations,
each of length `N*B`, each a bijection of `{0, ..., N*B - 1}` (its entries
are a permutation of that range, so in particular no `-1` placeholder,
modelled as `none`, remains). -/
theorem make_translation_permutations_total (cv : IndexConverters) :
    (make_translation_permutations cv).length = cv.N ∧
    ∀ perm ∈ make_translation_permutations cv,
      perm.length = cv.N * cv.B ∧
      (none : Option ℕ) ∉ perm ∧
      List.Perm perm ((List.range (cv.N * cv.B)).map some) := by
  constructor
  · unfold make_translation_permutations
    rw [List.length_map, List.length_finRange]
  · intro perm hperm
    obtain ⟨tix, -, rfl⟩ := List.mem_map.mp hperm
    have hbij : Function.Bijective (transMap cv (cv.ucBwd tix)) :=
      ⟨transMap_inj cv _, transMap_surj cv _⟩
    set e := Equiv.ofBijective _ hbij with he
    have hA : transPermArray cv tix
        = (List.finRange (cv.N * cv.B)).map (fun p => some (e.symm p).val) := by
      apply List.ext_getElem?
      intro i
      by_cases hi : i < cv.N * cv.B
      · rw [List.getElem?_map, getElem?_finRange _ i hi]
        have hx : (transMap cv (cv.ucBwd tix) (e.symm ⟨i, hi⟩)).val = i := by
          rw [show transMap cv (cv.ucBwd tix) (e.symm ⟨i, hi⟩)
              = e (e.symm ⟨i, hi⟩) from rfl, e.apply_symm_apply]
        have hg := transPermArray_get cv tix (e.symm ⟨i, hi⟩)
        rw [hx] at hg
        rw [hg]
        rfl
      · rw [List.getElem?_eq_none (by rw [transPermArray_length]; omega),
          List.getElem?_eq_none
            (by rw [List.length_map, List.length_finRange]; omega)]
    refine ⟨transPermArray_length cv tix, ?_, ?_⟩
    · rw [hA]
      intro hmem
      obtain ⟨p, -, hp⟩ := List.mem_map.mp hmem
      exact Option.noConfusion hp
    · rw [hA]
      have h1 : (List.finRange (cv.N * cv.B)).map (fun p => some (e.symm p).val)
          = ((List.finRange (cv.N * cv.B)).map e.symm).map
              (fun q => some q.val) := by
        rw [List.map_map]
        rfl
      rw [h1]
      have h2 := (Equiv.Perm.map_finRange_perm e.symm).map
        (fun q : Fin (cv.N * cv.B) => some q.val)
      refine h2.trans ?_
      have h3 : (List.finRange (cv.N * cv.B)).map
            (fun q : Fin (cv.N * cv.B) => some q.val)
          = ((List.finRange (cv.N * cv.B)).map Fin.val).map some := by
        rw [List.map_map]
        rfl
      rw [h3, List.map_coe_finRange]

/-- C5: the permutation that `make_translation_permutations` produces for
the zero translation `t = (0, 0, 0)` (the lattice point whose converter
index is `ucFwd (0,0,0)`) is the identity permutation of
`{0, ..., N*B - 1}`. -/
theorem translation_permutation_identity (cv : IndexConverters) :
    (make_translation_permutations cv)[(cv.ucFwd UnitCell.zero).val]?
      = some (transPermArray cv (cv.ucFwd UnitCell.zero)) ∧
    transPermArray cv (cv.ucFwd UnitCell.zero)
      = (List.range (cv.N * cv.B)).map some := by
  constructor
  · unfold make_translation_permutations
    rw [List.getElem?_map,
      getElem?_finRange _ _ (cv.ucFwd UnitCell.zero).isLt]
    rfl
  · apply List.ext_getElem?
    intro i
    by_cases hi : i < cv.N * cv.B
    · have hid : transMap cv (cv.ucBwd (cv.ucFwd UnitCell.zero)) ⟨i, hi⟩
          = ⟨i, hi⟩ := transMap_red_zero cv ⟨i, hi⟩
      have hg := transPermArray_get cv (cv.ucFwd UnitCell.zero) ⟨i, hi⟩
      rw [hid] at hg
      rw [hg, List.getElem?_map, List.getElem?_range hi]
      rfl
    · rw [List.getElem?_eq_none (by rw [transPermArray_length]; omega),
        List.getElem?_eq_none (by rw [List.length_map, List.length_range]; omega)]

/-- C3: value-flow composition of translation permutations is the
permutation of the reduced sum of the translations: with the
`perm[new] = old` convention and `(P ∘ Q)[n] = Q[P[n]]`, composing
`P_{t1}` after `P_{t2}` equals `P_{t1 + t2 mod T}`, the array at the
converter index of `t1 + t2`. -/
theorem translation_permutations_compose (cv : IndexConverters)
    (t1 t2 : Fin cv.N) :
    composePerm (transPermArray cv t1) (transPermArray cv t2)
      = transPermArray cv (cv.ucFwd (cv.ucBwd t1 + cv.ucBwd t2)) := by
  apply List.ext_getElem?
  intro i
  by_cases hi : i < cv.N * cv.B
  · obtain ⟨y, hy⟩ := transMap_surj cv (cv.ucBwd t1) ⟨i, hi⟩
    obtain ⟨z, hz⟩ := transMap_surj cv (cv.ucBwd t2) y
    have hP1 := transPermArray_get cv t1 y
    rw [hy] at hP1
    have hP2 := transPermArray_get cv t2 z
    rw [hz] at hP2
    have hg3 : transMap cv
        (cv.ucBwd (cv.ucFwd (cv.ucBwd t1 + cv.ucBwd t2))) z = ⟨i, hi⟩ := by
      rw [show cv.ucBwd (cv.ucFwd (cv.ucBwd t1 + cv.ucBwd t2))
          = cv.red (cv.ucBwd t1 + cv.ucBwd t2) from rfl, transMap_red,
        UnitCell.add_comm' (cv.ucBwd t1) (cv.ucBwd t2), ← transMap_comp,
        hz, hy]
    have hP3 := transPermArray_get cv (cv.ucFwd (cv.ucBwd t1 + cv.ucBwd t2)) z
    rw [hg3] at hP3
    unfold composePerm
    rw [List.getElem?_map, hP1, hP3]
    simp only [Option.map_some']
    rw [Option.some_bind, hP2]
    rfl
  · rw [List.getElem?_eq_none, List.getElem?_eq_none
      (by rw [transPermArray_length]; omega)]
    unfold composePerm
    rw [List.length_map, transPermArray_length]
    omega

/-- A concrete instance of the converter contract: a 2x1x1 supercell of a
prim with a single sublattice (`N = 2`, `B = 1`), with reduction modulo 2
along the first lattice vector. -/
def conv211 : IndexConverters where
  N := 2
  B := 1
  ucFwd := fun u => ⟨(u.i % 2).toNat, by omega⟩
  ucBwd := fun ix => ⟨(ix.val : ℤ), 0, 0⟩
  siteFwd := fun c => ⟨(c.unitcell.i % 2).toNat, by omega⟩
  siteBwd := fun l => ⟨0, ⟨(l.val : ℤ), 0, 0⟩⟩
  ucFwd_ucBwd := by decide
  ucFwd_add := by
    intro u v
    apply Fin.ext
    show ((((u.i % 2).toNat : ℤ) + v.i) % 2).toNat = ((u.i + v.i) % 2).toNat
    omega
  siteFwd_siteBwd := by decide
  siteBwd_b_lt := by decide
  siteBwd_siteFwd := by
    intro c hc
    obtain ⟨b, u⟩ := c
    have hb : b = 0 := Nat.lt_one_iff.mp hc
    subst hb
    rfl

/-- Witness for C3: composing the non-trivial translation permutation of
the 2x1x1 supercell with itself gives the permutation of the reduced sum. -/
theorem translation_permutations_compose_witness :
    composePerm (transPermArray conv211 ⟨1, by decide⟩) (transPermArray conv211 ⟨1, by decide⟩)
      = transPermArray conv211
          (conv211.ucFwd (conv211.ucBwd ⟨1, by decide⟩ + conv211.ucBwd ⟨1, by decide⟩)) :=
  translation_permutations_compose conv211 ⟨1, by decide⟩ ⟨1, by decide⟩

/-- Witness for C4 at the concrete 2x1x1 converter: the first returned
permutation is a length-2 bijection with no placeholder left. -/
theorem make_translation_permutations_total_witness :
    transPermArray conv211 ⟨0, by decide⟩ ∈ make_translation_permutations conv211 ∧
    ((transPermArray conv211 ⟨0, by decide⟩).length = conv211.N * conv211.B ∧
     (none : Option ℕ) ∉ transPermArray conv211 ⟨0, by decide⟩ ∧
     List.Perm (transPermArray conv211 ⟨0, by decide⟩)
       ((List.range (conv211.N * conv211.B)).map some)) :=
  ⟨List.mem_map_of_mem _ (List.mem_finRange _),
   (make_translation_permutations_total conv211).2 _
     (List.mem_map_of_mem _ (List.mem_finRange _))⟩

/-- Witness for C5 at the concrete 2x1x1 converter. -/
theorem translation_permutation_identity_witness :
    (make_translation_permutations conv211)[(conv211.ucFwd
        UnitCell.zero).val]?
      = some (transPermArray conv211 (conv211.ucFwd UnitCell.zero)) ∧
    transPermArray conv211 (conv211.ucFwd UnitCell.zero)
      = (List.range (conv211.N * conv211.B)).map some :=
  translation_permutation_identity conv211

/-!
Canonical-form operators on supercells (`canonical_form.cc`).
-/

/-- Embedding of `site_indices_are_invariant` from `canonical_form.cc`:
`none_of(s in site_indices, count(permute_index(s)) == 0)`.  The
`SupercellSymOp` is represented by its `permute_index` map on site
indices. -/
def site_indices_are_invariant (permute_index : ℕ → ℕ)
    (site_indices : Finset ℕ) : Bool :=
  decide (¬ ∃ s ∈ site_indices, permute_index s ∉ site_indices)

/-- C6: `site_indices_are_invariant` returns `true` iff every
`permute_index(s)` with `s` in the set stays in the set; when
`permute_index` is a bijection, source-closure also forces
target-closure (no site leaves or enters the set). -/
theorem site_indices_are_invariant_correct (permute_index : ℕ → ℕ)
    (site_indices : Finset ℕ)
    (hbij : Function.Bijective permute_index) :
    (site_indices_are_invariant permute_index site_indices = true ↔
      ∀ s ∈ site_indices, permute_index s ∈ site_indices) ∧
    (site_indices_are_invariant permute_index site_indices = true →
      ∀ s, permute_index s ∈ site_indices ↔ s ∈ site_indices) := by
  have hiff : site_indices_are_invariant permute_index site_indices = true ↔
      ∀ s ∈ site_indices, permute_index s ∈ site_indices := by
    unfold site_indices_are_invariant
    rw [decide_eq_true_iff]
    push_neg
    simp
  refine ⟨hiff, ?_⟩
  intro htrue
  have hclosed := hiff.mp htrue
  have himg : site_indices.image permute_index = site_indices := by
    apply Finset.eq_of_subset_of_card_le
    · intro x hx
      obtain ⟨s, hs, rfl⟩ := Finset.mem_image.mp hx
      exact hclosed s hs
    · rw [Finset.card_image_of_injective _ hbij.1]
  intro s
  constructor
  · intro hs
    rw [← himg] at hs
    obtain ⟨u, hu, huv⟩ := Finset.mem_image.mp hs
    rwa [← hbij.1 huv]
  · exact hclosed s

/-- Witness for C6 at the identity permutation and the set `{0, 1}`. -/
theorem site_indices_are_invariant_correct_witness :
    (site_indices_are_invariant (fun n => n) {0, 1} = true ↔
      ∀ s ∈ ({0, 1} : Finset ℕ), s ∈ ({0, 1} : Finset ℕ)) ∧
    (site_indices_are_invariant (fun n => n) {0, 1} = true →
      ∀ s, s ∈ ({0, 1} : Finset ℕ) ↔ s ∈ ({0, 1} : Finset ℕ)) :=
  site_indices_are_invariant_correct (fun n => n) {0, 1}
    Function.bijective_id

/-- Modelled from the spec: the external collaborator
`xtal::canonical::equivalent(L, point_group, tol)` (spec sections 4.5 and
6), which returns the unique `>=`-maximum of the point-group orbit
`{g . L}` of the lattice under the collaborator's lattice ordering.  The
tolerance-based lattice comparison is modelled by an exact linear order on
an abstract lattice type. -/
def canonical_equivalent {α : Type} [LinearOrder α]
    (point_group : List (α → α)) (L : α) : α :=
  match point_group.map (fun g => g L) with
  | [] => L
  | x :: xs => xs.foldl max x

/-- The prim data needed by the canonical-form operators: its point
group, each operation represented by its action on lattices
(`sym::copy_apply`). -/
structure Prim (α : Type) where
  point_group : List (α → α)

/-- A supercell: shared prim plus the super-lattice. -/
structure Supercell (α : Type) where
  prim : Prim α
  super_lattice : α

/-- Embedding of `make_canonical_form` from `canonical_form.cc`: a
supercell sharing `sc.prim` whose lattice is
`canonical::equivalent(sc.super_lattice, point_group)`. -/
def make_canonical_form {α : Type} [LinearOrder α] (sc : Supercell α) :
    Supercell α :=
  ⟨sc.prim, canonical_equivalent sc.prim.point_group sc.super_lattice⟩

/-- Embedding of `from_canonical` from `canonical_form.cc`: the first
point-group operation `op` with
`sc.super_lattice == copy_apply(op, canonical)`; if none exists, a
`std::runtime_error` carrying the "Not found" message. -/
def from_canonical {α : Type} [LinearOrder α] (sc : Supercell α) :
    Except String (α → α) :=
  match sc.prim.point_group.find? (fun op =>
      decide (sc.super_lattice = op (canonical_equivalent
        sc.prim.point_group sc.super_lattice))) with
  | some op => Except.ok op
  | none => Except.error
      "Error in CASM::config::from_canonical(Supercell const &): Not found"

theorem le_foldl_max {α : Type} [LinearOrder α] (x a : α) (xs : List α)
    (h : a ≤ x ∨ a ∈ xs) : a ≤ xs.foldl max x := by
  induction xs generalizing x with
  | nil => simpa using h
  | cons y ys ih =>
    rw [List.foldl_cons]
    rcases h with hx | hmem
    · exact ih _ (Or.inl (le_trans hx (le_max_left x y)))
    · rcases List.mem_cons.mp hmem with rfl | hys
      · exact ih _ (Or.inl (le_max_right x a))
      · exact ih _ (Or.inr hys)

theorem foldl_max_mem {α : Type} [LinearOrder α] (x : α) (xs : List α) :
    xs.foldl max x ∈ x :: xs := by
  induction xs generalizing x with
  | nil => exact List.mem_singleton.mpr rfl
  | cons y ys ih =>
    rw [List.foldl_cons]
    rcases List.mem_cons.mp (ih (max x y)) with heq | hmem
    · rcases max_choice x y with hx | hy
      · rw [heq, hx]
        exact List.mem_cons_self x (y :: ys)
      · rw [heq, hy]
        exact List.mem_cons_of_mem x (List.mem_cons_self y ys)
    · exact List.mem_cons_of_mem x (List.mem_cons_of_mem y hmem)

theorem canonical_equivalent_mem {α : Type} [LinearOrder α]
    (pg : List (α → α)) (L : α) (hpg : pg ≠ []) :
    canonical_equivalent pg L ∈ pg.map (fun g => g L) := by
  unfold canonical_equivalent
  cases hmap : pg.map (fun g => g L) with
  | nil => exact absurd (List.map_eq_nil_iff.mp hmap) hpg
  | cons x xs => exact foldl_max_mem x xs

theorem canonical_equivalent_ge {α : Type} [LinearOrder α]
    (pg : List (α → α)) (L a : α) (ha : a ∈ pg.map (fun g => g L)) :
    a ≤ canonical_equivalent pg L := by
  unfold canonical_equivalent
  cases hmap : pg.map (fun g => g L) with
  | nil => rw [hmap] at ha; cases ha
  | cons x xs =>
    rw [hmap] at ha
    rcases List.mem_cons.mp ha with rfl | hxs
    · exact le_foldl_max a a xs (Or.inl le_rfl)
    · exact le_foldl_max x a xs (Or.inr hxs)

/-- C7: `make_canonical_form` is idempotent: applied twice it gives the
same super-lattice as applied once, and the prim is shared, given the
collaborator contract that `canonical::equivalent` returns the maximum of
the point-group orbit and that the point group is a group (contains the
identity and is closed under composition). -/
theorem make_canonical_form_idempotent {α : Type} [LinearOrder α]
    (sc : Supercell α)
    (hid : ∃ e ∈ sc.prim.point_group, ∀ x, e x = x)
    (hcomp : ∀ g ∈ sc.prim.point_group, ∀ h ∈ sc.prim.point_group,
      ∃ k ∈ sc.prim.point_group, ∀ x, k x = g (h x)) :
    make_canonical_form (make_canonical_form sc) = make_canonical_form sc ∧
    (make_canonical_form sc).prim = sc.prim := by
  have hpg : sc.prim.point_group ≠ [] := by
    obtain ⟨e, he, -⟩ := hid
    intro hempty
    rw [hempty] at he
    cases he
  obtain ⟨g0, hg0, hM⟩ := List.mem_map.mp
    (canonical_equivalent_mem sc.prim.point_group sc.super_lattice hpg)
  have hle : canonical_equivalent sc.prim.point_group
      (canonical_equivalent sc.prim.point_group sc.super_lattice)
      ≤ canonical_equivalent sc.prim.point_group sc.super_lattice := by
    obtain ⟨g1, hg1, him⟩ := List.mem_map.mp
      (canonical_equivalent_mem sc.prim.point_group
        (canonical_equivalent sc.prim.point_group sc.super_lattice) hpg)
    obtain ⟨k, hk, hkx⟩ := hcomp g1 hg1 g0 hg0
    calc canonical_equivalent sc.prim.point_group
          (canonical_equivalent sc.prim.point_group sc.super_lattice)
        = g1 (canonical_equivalent sc.prim.point_group sc.super_lattice) :=
          him.symm
      _ = g1 (g0 sc.super_lattice) := by rw [hM]
      _ = k sc.super_lattice := (hkx sc.super_lattice).symm
      _ ≤ canonical_equivalent sc.prim.point_group sc.super_lattice :=
          canonical_equivalent_ge _ _ _ (List.mem_map_of_mem _ hk)
  have hge : canonical_equivalent sc.prim.point_group sc.super_lattice
      ≤ canonical_equivalent sc.prim.point_group
          (canonical_equivalent sc.prim.point_group sc.super_lattice) := by
    obtain ⟨e, he, hex⟩ := hid
    have hmem : e (canonical_equivalent sc.prim.point_group
          sc.super_lattice)
        ∈ sc.prim.point_group.map (fun g =>
            g (canonical_equivalent sc.prim.point_group sc.super_lattice)) :=
      List.mem_map_of_mem _ he
    rw [hex] at hmem
    exact canonical_equivalent_ge _ _ _ hmem
  exact ⟨congrArg (Supercell.mk sc.prim) (le_antisymm hle hge), rfl⟩

/-- Witness for C7: the Boolean lattice model with point group
`{identity, negation}`. -/
theorem make_canonical_form_idempotent_witness :
    make_canonical_form (make_canonical_form
        (⟨⟨[fun x => x, fun x => !x]⟩, false⟩ : Supercell Bool))
      = make_canonical_form
          (⟨⟨[fun x => x, fun x => !x]⟩, false⟩ : Supercell Bool) ∧
    (make_canonical_form
        (⟨⟨[fun x => x, fun x => !x]⟩, false⟩ : Supercell Bool)).prim
      = (⟨⟨[fun x => x, fun x => !x]⟩, false⟩ : Supercell Bool).prim :=
  make_canonical_form_idempotent _
    ⟨fun x => x, List.mem_cons_self _ _, fun _ => rfl⟩
    (by
      intro g hg h hh
      simp only [List.mem_cons, List.not_mem_nil, or_false] at hg hh
      rcases hg with rfl | rfl <;> rcases hh with rfl | rfl
      · exact ⟨fun x => x, List.mem_cons_self _ _, fun _ => rfl⟩
      · exact ⟨fun x => !x,
          List.mem_cons_of_mem _ (List.mem_cons_self _ _), fun _ => rfl⟩
      · exact ⟨fun x => !x,
          List.mem_cons_of_mem _ (List.mem_cons_self _ _), fun _ => rfl⟩
      · exact ⟨fun x => x, List.mem_cons_self _ _,
          fun x => (Bool.not_not x).symm⟩)

/-- C8: `from_canonical` returns the first point-group operation `g`
with `sc.super_lattice == copy_apply(g, canonical(sc))`; when no
operation satisfies this it signals a fatal error whose message contains
"Not found" and returns no operation. -/
theorem from_canonical_correct {α : Type} [LinearOrder α]
    (sc : Supercell α) :
    (∀ g, from_canonical sc = Except.ok g →
      g ∈ sc.prim.point_group ∧
      sc.super_lattice
        = g (canonical_equivalent sc.prim.point_group sc.super_lattice) ∧
      ∃ l1 l2, sc.prim.point_group = l1 ++ g :: l2 ∧
        ∀ h ∈ l1, sc.super_lattice
          ≠ h (canonical_equivalent sc.prim.point_group sc.super_lattice)) ∧
    ((∀ h ∈ sc.prim.point_group, sc.super_lattice
        ≠ h (canonical_equivalent sc.prim.point_group sc.super_lattice)) →
      ∃ msg, from_canonical sc = Except.error msg ∧
        (∃ pre post, msg = pre ++ "Not found" ++ post) ∧
        ∀ g, from_canonical sc ≠ Except.ok g) := by
  constructor
  · intro g hg
    unfold from_canonical at hg
    cases hfind : sc.prim.point_group.find? (fun op =>
        decide (sc.super_lattice = op (canonical_equivalent
          sc.prim.point_group sc.super_lattice))) with
    | none => rw [hfind] at hg; cases hg
    | some op =>
      rw [hfind] at hg
      cases hg
      obtain ⟨hpred, as, bs, hsplit, hfail⟩ := List.find?_eq_some.mp hfind
      refine ⟨List.mem_of_find?_eq_some hfind, of_decide_eq_true hpred,
        as, bs, hsplit, ?_⟩
      intro h hh
      have := hfail h hh
      simpa using this
  · intro hall
    have hnone : sc.prim.point_group.find? (fun op =>
        decide (sc.super_lattice = op (canonical_equivalent
          sc.prim.point_group sc.super_lattice))) = none := by
      rw [List.find?_eq_none]
      intro x hx
      simpa using hall x hx
    refine ⟨"Error in CASM::config::from_canonical(Supercell const &): Not found",
      ?_, ⟨"Error in CASM::config::from_canonical(Supercell const &): ", "",
        by rfl⟩, ?_⟩
    · unfold from_canonical
      rw [hnone]
    · intro g hg
      unfold from_canonical at hg
      rw [hnone] at hg
      cases hg

/-- Witness for C8: on a one-element point group the found branch returns
the operation, and on a group that moves the lattice the error branch
fires with the "Not found" message. -/
theorem from_canonical_correct_witness :
    ((fun x => x)
        ∈ (⟨⟨[fun x => x]⟩, false⟩ : Supercell Bool).prim.point_group) ∧
    (∃ msg, from_canonical (⟨⟨[fun _ => true]⟩, false⟩ : Supercell Bool)
        = Except.error msg ∧
      (∃ pre post, msg = pre ++ "Not found" ++ post) ∧
      ∀ g, from_canonical (⟨⟨[fun _ => true]⟩, false⟩ : Supercell Bool)
        ≠ Except.ok g) :=
  ⟨((from_canonical_correct (⟨⟨[fun x => x]⟩, false⟩ : Supercell Bool)).1
      (fun x => x) rfl).1,
   (from_canonical_correct (⟨⟨[fun _ => true]⟩, false⟩ : Supercell Bool)).2
     (by
       intro h hh
       simp only [List.mem_cons, List.not_mem_nil, or_false] at hh
       subst hh
       decide)⟩

/-!
Orbit enumeration (`make_prim_periodic_orbits` in `orbits.cc`).

The external collaborators are parameters: `candidate_sites` is the
per-branch result of the neighborhood factory applied to the site filter,
`cluster_filter` the per-branch cluster filter, `make_canonical` the
group-algorithm primitive `make_canonical_element` applied to the
symmetry representation, `subclusters` the sequence produced by
`SubClusterCounter`, `invariants` the `ClusterInvariants` constructor and
`cmp` the `CompareCluster_f` comparator.  `make_local_orbits` has the
same structure with different parameter values (cutoff-radius candidate
sites, phenomenal invariants, local canonicalisation), so the model
covers both custom-generator loops.
-/

/-- A custom orbit generator: a prototype cluster plus the option to also
include all of its subclusters. -/
structure IntegralClusterOrbitGenerator where
  prototype : IntegralCluster
  include_subclusters : Bool

/-- Ordered-set insertion under a strict-weak-order comparator `cmp`
(`std::set::emplace`): insert unless an equivalent element (neither
less-than holds) is present. -/
def setInsert {β : Type} (cmp : β → β → Bool) (x : β) (s : List β) :
    List β :=
  if s.any (fun y => !cmp x y && !cmp y x) then s else x :: s

/-- Range insertion (`std::set::insert(first, last)`). -/
def setInsertMany {β : Type} (cmp : β → β → Bool) (xs s : List β) :
    List β :=
  xs.foldl (fun acc y => setInsert cmp y acc) s

/-- Embedding of the unique-cluster collection phase of
`make_prim_periodic_orbits` from `orbits.cc`: seed `final` and
`prev_branch` with the null cluster, grow branch by branch by adding one
candidate site at a time (skipping repeated sites, filtering with
`cluster_filter`, canonicalising before insertion), merge each branch
into `final`, and finally add the custom generators with no filter
applied (also their subclusters when requested). -/
def branchStep {ι : Type}
    (invariants : IntegralCluster → ι)
    (cmp : ι × IntegralCluster → ι × IntegralCluster → Bool)
    (candidate_sites : ℕ → List UnitCellCoord)
    (cluster_filter : ℕ → ι → IntegralCluster → Bool)
    (make_canonical : IntegralCluster → IntegralCluster)
    (fp : List (ι × IntegralCluster) × List (ι × IntegralCluster))
    (branch : ℕ) :
    List (ι × IntegralCluster) × List (ι × IntegralCluster) :=
  let curr := fp.2.foldl (fun curr pair =>
    (candidate_sites branch).foldl (fun curr integral_site =>
      if pair.2.contains integral_site then curr
      else
        let test_cluster := pair.2 ++ [integral_site]
        let invs := invariants test_cluster
        if !(cluster_filter branch invs test_cluster) then curr
        else setInsert cmp (invs, make_canonical test_cluster) curr)
      curr) []
  (setInsertMany cmp fp.2 fp.1, curr)

/-- One iteration of the custom-generator loop of
`make_prim_periodic_orbits`: canonicalise the prototype and insert it
into `final` --- no `site_filter` or `cluster_filter` is invoked --- and,
when `include_subclusters` is set, canonicalise and insert every
subcluster as well. -/
def customGeneratorStep {ι : Type}
    (invariants : IntegralCluster → ι)
    (cmp : ι × IntegralCluster → ι × IntegralCluster → Bool)
    (make_canonical : IntegralCluster → IntegralCluster)
    (subclusters : IntegralCluster → List IntegralCluster)
    (final : List (ι × IntegralCluster))
    (cg : IntegralClusterOrbitGenerator) :
    List (ι × IntegralCluster) :=
  let test_cluster := make_canonical cg.prototype
  let final2 := setInsert cmp (invariants test_cluster, test_cluster) final
  if cg.include_subclusters then
    (subclusters cg.prototype).foldl (fun final3 sub =>
      let t := make_canonical sub
      setInsert cmp (invariants t, t) final3) final2
  else final2

def make_prim_periodic_orbits_final {ι : Type}
    (invariants : IntegralCluster → ι)
    (cmp : ι × IntegralCluster → ι × IntegralCluster → Bool)
    (candidate_sites : ℕ → List UnitCellCoord)
    (cluster_filter : ℕ → ι → IntegralCluster → Bool)
    (make_canonical : IntegralCluster → IntegralCluster)
    (subclusters : IntegralCluster → List IntegralCluster)
    (num_branches : ℕ)
    (custom_generators : List IntegralClusterOrbitGenerator) :
    List (ι × IntegralCluster) :=
  let null_cluster : IntegralCluster := []
  let final0 := setInsert cmp (invariants null_cluster, null_cluster) []
  let prev0 := setInsert cmp (invariants null_cluster, null_cluster) []
  let fp := (List.range' 1 (num_branches - 1)).foldl
    (branchStep invariants cmp candidate_sites cluster_filter
      make_canonical) (final0, prev0)
  let final1 := setInsertMany cmp fp.2 fp.1
  custom_generators.foldl
    (customGeneratorStep invariants cmp make_canonical subclusters) final1

/-- Embedding of the output phase of `make_prim_periodic_orbits`: one
orbit (built by `make_prim_periodic_orbit`, the external group-orbit
primitive, passed as `mk_orbit`) per unique cluster of `final`. -/
def make_prim_periodic_orbits_model {ι : Type}
    (invariants : IntegralCluster → ι)
    (cmp : ι × IntegralCluster → ι × IntegralCluster → Bool)
    (candidate_sites : ℕ → List UnitCellCoord)
    (cluster_filter : ℕ → ι → IntegralCluster → Bool)
    (make_canonical : IntegralCluster → IntegralCluster)
    (subclusters : IntegralCluster → List IntegralCluster)
    (num_branches : ℕ)
    (custom_generators : List IntegralClusterOrbitGenerator)
    (mk_orbit : IntegralCluster → List IntegralCluster) :
    List (List IntegralCluster) :=
  (make_prim_periodic_orbits_final invariants cmp candidate_sites
    cluster_filter make_canonical subclusters num_branches
    custom_generators).map (fun pair => mk_orbit pair.2)

/-- Membership up to the set comparator's equivalence: some element of
`s` compares equivalent to `x` (neither is less than the other). -/
def memEquiv {β : Type} (cmp : β → β → Bool) (s : List β) (x : β) :
    Prop :=
  ∃ y ∈ s, cmp x y = false ∧ cmp y x = false

theorem memEquiv_mono {β : Type} (cmp : β → β → Bool) {s t : List β}
    (hsub : s ⊆ t) {x : β} (h : memEquiv cmp s x) : memEquiv cmp t x := by
  obtain ⟨y, hy, h1, h2⟩ := h
  exact ⟨y, hsub hy, h1, h2⟩

theorem setInsert_subset {β : Type} (cmp : β → β → Bool) (x : β)
    (s : List β) : s ⊆ setInsert cmp x s := by
  unfold setInsert
  split
  · exact fun a ha => ha
  · exact List.subset_cons_self x s

theorem memEquiv_setInsert_self {β : Type} (cmp : β → β → Bool)
    (hirr : ∀ y, cmp y y = false) (x : β) (s : List β) :
    memEquiv cmp (setInsert cmp x s) x := by
  unfold setInsert
  by_cases h : s.any (fun y => !cmp x y && !cmp y x) = true
  · rw [if_pos h]
    obtain ⟨y, hy, hb⟩ := List.any_eq_true.mp h
    rw [Bool.and_eq_true, Bool.not_eq_true', Bool.not_eq_true'] at hb
    exact ⟨y, hy, hb.1, hb.2⟩
  · rw [if_neg h]
    exact ⟨x, List.mem_cons_self x s, hirr x, hirr x⟩

theorem foldl_subset_of_step_subset {β γ : Type} (f : List β → γ → List β)
    (hf : ∀ s a, s ⊆ f s a) (l : List γ) (s : List β) :
    s ⊆ l.foldl f s := by
  induction l generalizing s with
  | nil => exact fun a ha => ha
  | cons a rest ih => exact List.Subset.trans (hf s a) (ih (f s a))

theorem customGeneratorStep_subset {ι : Type}
    (invariants : IntegralCluster → ι)
    (cmp : ι × IntegralCluster → ι × IntegralCluster → Bool)
    (make_canonical : IntegralCluster → IntegralCluster)
    (subclusters : IntegralCluster → List IntegralCluster)
    (final : List (ι × IntegralCluster))
    (cg : IntegralClusterOrbitGenerator) :
    final ⊆ customGeneratorStep invariants cmp make_canonical subclusters
      final cg := by
  unfold customGeneratorStep
  split
  · exact List.Subset.trans (setInsert_subset cmp _ final)
      (foldl_subset_of_step_subset _
        (fun s a => setInsert_subset cmp _ s) _ _)
  · exact setInsert_subset cmp _ final

theorem customGeneratorStep_memEquiv_proto {ι : Type}
    (invariants : IntegralCluster → ι)
    (cmp : ι × IntegralCluster → ι × IntegralCluster → Bool)
    (make_canonical : IntegralCluster → IntegralCluster)
    (subclusters : IntegralCluster → List IntegralCluster)
    (final : List (ι × IntegralCluster))
    (cg : IntegralClusterOrbitGenerator)
    (hirr : ∀ x, cmp x x = false) :
    memEquiv cmp
      (customGeneratorStep invariants cmp make_canonical subclusters
        final cg)
      (invariants (make_canonical cg.prototype),
        make_canonical cg.prototype) := by
  unfold customGeneratorStep
  split
  · exact memEquiv_mono cmp
      (foldl_subset_of_step_subset _
        (fun s a => setInsert_subset cmp _ s) _ _)
      (memEquiv_setInsert_self cmp hirr _ final)
  · exact memEquiv_setInsert_self cmp hirr _ final

theorem customGeneratorStep_memEquiv_sub {ι : Type}
    (invariants : IntegralCluster → ι)
    (cmp : ι × IntegralCluster → ι × IntegralCluster → Bool)
    (make_canonical : IntegralCluster → IntegralCluster)
    (subclusters : IntegralCluster → List IntegralCluster)
    (final : List (ι × IntegralCluster))
    (cg : IntegralClusterOrbitGenerator)
    (hirr : ∀ x, cmp x x = false)
    (hinc : cg.include_subclusters = true)
    (sub : IntegralCluster) (hsub : sub ∈ subclusters cg.prototype) :
    memEquiv cmp
      (customGeneratorStep invariants cmp make_canonical subclusters
        final cg)
      (invariants (make_canonical sub), make_canonical sub) := by
  unfold customGeneratorStep
  rw [if_pos hinc]
  obtain ⟨s1, s2, hs⟩ := List.append_of_mem hsub
  rw [hs, List.foldl_append, List.foldl_cons]
  exact memEquiv_mono cmp
    (foldl_subset_of_step_subset _
      (fun s a => setInsert_subset cmp _ s) _ _)
    (memEquiv_setInsert_self cmp hirr _ _)

theorem foldl_customs_memEquiv_proto {ι : Type}
    (invariants : IntegralCluster → ι)
    (cmp : ι × IntegralCluster → ι × IntegralCluster → Bool)
    (make_canonical : IntegralCluster → IntegralCluster)
    (subclusters : IntegralCluster → List IntegralCluster)
    (hirr : ∀ x, cmp x x = false)
    (gens : List IntegralClusterOrbitGenerator)
    (cg : IntegralClusterOrbitGenerator) (hcg : cg ∈ gens)
    (base : List (ι × IntegralCluster)) :
    memEquiv cmp
      (gens.foldl (customGeneratorStep invariants cmp make_canonical
        subclusters) base)
      (invariants (make_canonical cg.prototype),
        make_canonical cg.prototype) := by
  obtain ⟨l1, l2, rfl⟩ := List.append_of_mem hcg
  rw [List.foldl_append, List.foldl_cons]
  exact memEquiv_mono cmp
    (foldl_subset_of_step_subset _
      (fun s a => customGeneratorStep_subset invariants cmp make_canonical
        subclusters s a) _ _)
    (customGeneratorStep_memEquiv_proto invariants cmp make_canonical
      subclusters _ cg hirr)

theorem foldl_customs_memEquiv_sub {ι : Type}
    (invariants : IntegralCluster → ι)
    (cmp : ι × IntegralCluster → ι × IntegralCluster → Bool)
    (make_canonical : IntegralCluster → IntegralCluster)
    (subclusters : IntegralCluster → List IntegralCluster)
    (hirr : ∀ x, cmp x x = false)
    (gens : List IntegralClusterOrbitGenerator)
    (cg : IntegralClusterOrbitGenerator) (hcg : cg ∈ gens)
    (hinc : cg.include_subclusters = true)
    (sub : IntegralCluster) (hsub : sub ∈ subclusters cg.prototype)
    (base : List (ι × IntegralCluster)) :
    memEquiv cmp
      (gens.foldl (customGeneratorStep invariants cmp make_canonical
        subclusters) base)
      (invariants (make_canonical sub), make_canonical sub) := by
  obtain ⟨l1, l2, rfl⟩ := List.append_of_mem hcg
  rw [List.foldl_append, List.foldl_cons]
  exact memEquiv_mono cmp
    (foldl_subset_of_step_subset _
      (fun s a => customGeneratorStep_subset invariants cmp make_canonical
        subclusters s a) _ _)
    (customGeneratorStep_memEquiv_sub invariants cmp make_canonical
      subclusters _ cg hirr hinc sub hsub)

/-- C9: in `make_prim_periodic_orbits`, every custom generator's
canonicalised prototype is a member (up to the set comparator) of the
final cluster set, and when `include_subclusters` is set so is every
canonicalised subcluster; the orbit of such a member appears in the
returned orbit list.  The statement holds for every `candidate_sites`
(hence every `site_filter`) and every `cluster_filter`, so a
custom-generator cluster can never be excluded by the filters. -/
theorem make_prim_periodic_orbits_custom_bypass {ι : Type}
    (invariants : IntegralCluster → ι)
    (cmp : ι × IntegralCluster → ι × IntegralCluster → Bool)
    (candidate_sites : ℕ → List UnitCellCoord)
    (cluster_filter : ℕ → ι → IntegralCluster → Bool)
    (make_canonical : IntegralCluster → IntegralCluster)
    (subclusters : IntegralCluster → List IntegralCluster)
    (num_branches : ℕ)
    (custom_generators : List IntegralClusterOrbitGenerator)
    (mk_orbit : IntegralCluster → List IntegralCluster)
    (hirr : ∀ x, cmp x x = false)
    (cg : IntegralClusterOrbitGenerator)
    (hcg : cg ∈ custom_generators) :
    (∃ pair ∈ make_prim_periodic_orbits_final invariants cmp
        candidate_sites cluster_filter make_canonical subclusters
        num_branches custom_generators,
      (cmp (invariants (make_canonical cg.prototype),
          make_canonical cg.prototype) pair = false ∧
        cmp pair (invariants (make_canonical cg.prototype),
          make_canonical cg.prototype) = false) ∧
      mk_orbit pair.2 ∈ make_prim_periodic_orbits_model invariants cmp
        candidate_sites cluster_filter make_canonical subclusters
        num_branches custom_generators mk_orbit) ∧
    (cg.include_subclusters = true → ∀ sub ∈ subclusters cg.prototype,
      ∃ pair ∈ make_prim_periodic_orbits_final invariants cmp
          candidate_sites cluster_filter make_canonical subclusters
          num_branches custom_generators,
        (cmp (invariants (make_canonical sub), make_canonical sub) pair
            = false ∧
          cmp pair (invariants (make_canonical sub), make_canonical sub)
            = false) ∧
        mk_orbit pair.2 ∈ make_prim_periodic_orbits_model invariants cmp
          candidate_sites cluster_filter make_canonical subclusters
          num_branches custom_generators mk_orbit) := by
  have hfold : make_prim_periodic_orbits_final invariants cmp
      candidate_sites cluster_filter make_canonical subclusters
      num_branches custom_generators
      = custom_generators.foldl
          (customGeneratorStep invariants cmp make_canonical subclusters)
          (setInsertMany cmp
            ((List.range' 1 (num_branches - 1)).foldl
              (branchStep invariants cmp candidate_sites cluster_filter
                make_canonical)
              (setInsert cmp (invariants [], ([] : IntegralCluster)) [],
               setInsert cmp (invariants [], ([] : IntegralCluster)) [])).2
            ((List.range' 1 (num_branches - 1)).foldl
              (branchStep invariants cmp candidate_sites cluster_filter
                make_canonical)
              (setInsert cmp (invariants [], ([] : IntegralCluster)) [],
               setInsert cmp (invariants [], ([] : IntegralCluster)) [])).1)
      := rfl
  constructor
  · obtain ⟨y, hy, h1, h2⟩ := hfold ▸ foldl_customs_memEquiv_proto
      invariants cmp make_canonical subclusters hirr custom_generators cg
      hcg _
    exact ⟨y, hy, ⟨h1, h2⟩,
      List.mem_map_of_mem (fun pair => mk_orbit pair.2) hy⟩
  · intro hinc sub hsub
    obtain ⟨y, hy, h1, h2⟩ := hfold ▸ foldl_customs_memEquiv_sub
      invariants cmp make_canonical subclusters hirr custom_generators cg
      hcg hinc sub hsub _
    exact ⟨y, hy, ⟨h1, h2⟩,
      List.mem_map_of_mem (fun pair => mk_orbit pair.2) hy⟩

/-- Concrete invariants for the C9 witness: cluster size. -/
def c9invW : IntegralCluster → ℕ := fun c => c.length

/-- Concrete comparator for the C9 witness: strict order on the
invariant. -/
def c9cmpW : ℕ × IntegralCluster → ℕ × IntegralCluster → Bool :=
  fun a b => decide (a.1 < b.1)

/-- Concrete prototype for the C9 witness. -/
def c9protoW : IntegralCluster := [⟨0, ⟨0, 0, 0⟩⟩]

/-- Concrete custom generator for the C9 witness, with subclusters
included. -/
def c9genW : IntegralClusterOrbitGenerator := ⟨c9protoW, true⟩

/-- Witness for C9 at a concrete instantiation of all collaborators. -/
theorem make_prim_periodic_orbits_custom_bypass_witness :
    (∃ pair ∈ make_prim_periodic_orbits_final c9invW c9cmpW (fun _ => [])
        (fun _ _ _ => true) (fun c => c) (fun _ => [[]]) 2 [c9genW],
      (c9cmpW (c9invW c9protoW, c9protoW) pair = false ∧
        c9cmpW pair (c9invW c9protoW, c9protoW) = false) ∧
      [pair.2] ∈ make_prim_periodic_orbits_model c9invW c9cmpW
        (fun _ => []) (fun _ _ _ => true) (fun c => c) (fun _ => [[]]) 2
        [c9genW] (fun c => [c])) ∧
    (c9genW.include_subclusters = true →
      ∀ sub ∈ ([[]] : List IntegralCluster),
      ∃ pair ∈ make_prim_periodic_orbits_final c9invW c9cmpW
          (fun _ => []) (fun _ _ _ => true) (fun c => c) (fun _ => [[]]) 2
          [c9genW],
        (c9cmpW (c9invW sub, sub) pair = false ∧
          c9cmpW pair (c9invW sub, sub) = false) ∧
        [pair.2] ∈ make_prim_periodic_orbits_model c9invW c9cmpW
          (fun _ => []) (fun _ _ _ => true) (fun c => c) (fun _ => [[]]) 2
          [c9genW] (fun c => [c])) :=
  make_prim_periodic_orbits_custom_bypass c9invW c9cmpW (fun _ => [])
    (fun _ _ _ => true) (fun c => c) (fun _ => [[]]) 2 [c9genW]
    (fun c => [c])
    (by intro x; simp [c9cmpW])
    c9genW (List.mem_cons_self _ _)
